import Mathlib

/-!
Shallow embedding of `netlify/functions/summarize.py` from the
meeting-summarizer repository, with proofs about the transcript-to-brief
pipeline: the overlap-aware chunker, the chunk-summarizer fallback, the
action-item, requirement and client extractors, and the request-handler
boundary.

Text is modelled as `List Char`.  The external NLP engine (spaCy with the
pytextrank pipe) is an external collaborator: its outputs — sentence
segmentation, entity lists, ranked phrases, ranked summary sentences —
enter the embedded functions as explicit parameters, and a raised
exception in an engine call is modelled as `Option.none` or
`Except.error`.  The chunking loop is embedded with explicit fuel;
`none` means the fuel bound was exhausted, so a proof that the result is
`none` for every fuel amount is a proof that the source loop does not
terminate on that input.
-/

namespace Summarizer

/-- Str abbreviates the character-list representation of Python strings. -/
abbrev Str := List Char

/-- Whitespace test matching Python's notion of whitespace on the ASCII
range (space, tab, newline, carriage return, vertical tab, form feed);
this set backs both `str.strip()` and the regex class `\s` as used by the
source on ASCII input. -/
def pisSpace (c : Char) : Bool :=
  c == ' ' || c == '\t' || c == '\n' || c == '\r' || c == '\x0b' || c == '\x0c'

/-- Python `str.strip()`: remove leading and trailing whitespace. -/
def pstrip (l : Str) : Str :=
  ((l.dropWhile pisSpace).reverse.dropWhile pisSpace).reverse

/-- Python `str.lower()` on the ASCII range. -/
def strLower (s : Str) : Str := s.map Char.toLower

/-- Does the text begin with the pattern?  Helper for substring search. -/
def startsWithB : Str → Str → Bool
  | [], _ => true
  | _ :: _, [] => false
  | p :: ps, c :: cs => p == c && startsWithB ps cs

/-- Python's containment test `k in s` for strings: `k` occurs as a
contiguous substring of the second argument. -/
def hasSub (k : Str) : Str → Bool
  | [] => k.isEmpty
  | c :: rest => startsWithB k (c :: rest) || hasSub k rest

/-- Helper for `pySplitWs`, carrying the current word reversed. -/
def pySplitAux : Str → Str → List Str
  | [], cur => if cur.isEmpty then [] else [cur.reverse]
  | c :: rest, cur =>
    if pisSpace c then
      if cur.isEmpty then pySplitAux rest [] else cur.reverse :: pySplitAux rest []
    else pySplitAux rest (c :: cur)

/-- Python `str.split()` with no argument: split on runs of whitespace,
dropping empty pieces. -/
def pySplitWs (s : Str) : List Str := pySplitAux s []

/-- Python slice index resolution: a negative index counts from the end
of the list and is clamped at zero, as in `text[a:b]`. -/
def pyIdx (n : Nat) (i : Int) : Nat :=
  if i < 0 then ((n : Int) + i).toNat else i.toNat

/-- Python slice `l[a:b]`. -/
def pySlice (l : Str) (a b : Int) : Str :=
  (l.drop (pyIdx l.length a)).take (pyIdx l.length b - pyIdx l.length a)

/-- Position just after the first match of the regex `[\.\n]\s`
(the source's `re.search(r"[\.\n]\s", ...)` followed by `m.end()`): the
first index holding a period or newline immediately followed by a
whitespace character, plus two.  `none` when there is no match. -/
def findBoundaryEnd : Str → Option Nat
  | [] => none
  | [_] => none
  | a :: b :: rest =>
    if (a == '.' || a == '\n') && pisSpace b then some 2
    else (findBoundaryEnd (b :: rest)).map (· + 1)

/-- The fifty-character window around `e0`: the source's
`text[end-50:end+50]` with Python's negative-index semantics. -/
def windowOf (text : Str) (e0 : Nat) : Str :=
  pySlice text ((e0 : Int) - 50) ((e0 : Int) + 50)

/-- End position chosen by one iteration of the chunking loop of
`chunk_text` (source lines 27-34): the hard cut `min L (start + max_chars)`,
moved by the boundary search when the cut falls short of the end of the
text.  The moved position is the source's
`max(start, end - 50 + (m.end() - 50))`, computed over `Int` exactly as
Python computes it and then cast back (the maximum with `start` is never
negative). -/
def iterEnd (text : Str) (maxChars start : Nat) : Nat :=
  let L := text.length
  let e0 := min L (start + maxChars)
  if e0 < L then
    match findBoundaryEnd (windowOf text e0) with
    | some me => (max (start : Int) ((e0 : Int) + (me : Int) - 100)).toNat
    | none => e0
  else e0

/-- The chunking loop of `chunk_text` (source lines 25-40), with explicit
fuel.  Each pass appends `text[start:end].strip()` and advances
`start = end - overlap` clamped at zero (truncated subtraction); the loop
exits when `start` reaches the length of the text.  `none` means the fuel
bound was exhausted before the loop exited. -/
def chunkIter (text : Str) (maxChars overlap : Nat) :
    Nat → Nat → List Str → Option (List Str)
  | 0, _, _ => none
  | fuel + 1, start, acc =>
    if start < text.length then
      let e := iterEnd text maxChars start
      chunkIter text maxChars overlap fuel (e - overlap)
        (acc ++ [pstrip (pySlice text (start : Int) (e : Int))])
    else some acc

/-- chunk_text from the source (lines 16-41): strip the text, return it
as the single chunk when it fits in `maxChars`, and otherwise run the
overlapping chunking loop. -/
def chunk_text (text0 : Str) (maxChars overlap fuel : Nat) : Option (List Str) :=
  let text := pstrip text0
  if text.length ≤ maxChars then some [text]
  else chunkIter text maxChars overlap fuel 0 []

/-- summarize_chunk from the source (lines 44-53).  The two engine calls
are passed in as explicit results: `summaryRes` is the outcome of
`doc._.textrank.summary(limit_phrases=15, limit_sentences=sentLimit)`
(`none` when that call raised — the source's `except` path), and
`segRes` is the outcome of evaluating `list(doc.sents)` (`none` when
segmentation itself raises, in which case the failure propagates as the
overall `none`).  Scores attached to ranked sentences are kept abstract
in `α` and dropped exactly as the source drops them. -/
def summarize_chunk {α : Type} (summaryRes : Option (List (Str × α)))
    (segRes : Option (List Str)) (sentLimit : Nat) : Option (List Str) :=
  match summaryRes with
  | some pairs => some (pairs.map Prod.fst)
  | none =>
    match segRes with
    | some sents => some ((sents.take sentLimit).map pstrip)
    | none => none

/-- An action item as assembled by `extract_action_items`
(source lines 64-69). -/
structure ActionItem where
  text : Str
  owners : List String
  dates : List String
deriving DecidableEq

/-- One segmented sentence together with the entities the engine reports
inside its span, as pairs of entity text and label. -/
structure SentInfo where
  text : Str
  ents : List (String × String)
deriving DecidableEq

/-- Keyword list of `extract_action_items` (source line 59). -/
def action_keywords : List Str :=
  ["action".toList, "action item".toList, "will".toList, "shall".toList,
   "to do".toList, "assign".toList, "assigned to".toList, "owner".toList,
   "deadline".toList, "by ".toList]

/-- The action list before deduplication (source lines 60-69): a sentence
qualifies when its lowercased trimmed text contains one of the keywords;
owners are its PERSON or ORG entities and dates its DATE or TIME
entities, in engine order. -/
def mkActions (sents : List SentInfo) : List ActionItem :=
  sents.filterMap (fun sent =>
    let s := pstrip sent.text
    if action_keywords.any (fun k => hasSub k (strLower s)) then
      some { text := s,
             owners := (sent.ents.filter
               (fun e => e.2 == "PERSON" || e.2 == "ORG")).map Prod.fst,
             dates := (sent.ents.filter
               (fun e => e.2 == "DATE" || e.2 == "TIME")).map Prod.fst }
    else none)

/-- The dedup loop of `extract_action_items` (source lines 71-78): walk
the list keeping a set of sentence texts already seen, and keep an item
only when its text is new. -/
def dedupeActions : List ActionItem → List Str → List ActionItem
  | [], _ => []
  | a :: rest, seen =>
    if a.text ∈ seen then dedupeActions rest seen
    else a :: dedupeActions rest (a.text :: seen)

/-- extract_action_items from the source (lines 56-79), over the engine's
segmentation of the transcript. -/
def extract_action_items (sents : List SentInfo) : List ActionItem :=
  dedupeActions (mkActions sents) []

/-- Keyword list of `extract_requirements_from_phrases` (source line 87). -/
def req_keywords : List Str :=
  ["require".toList, "need".toList, "should".toList, "must".toList,
   "deliver".toList, "support".toList, "implement".toList, "setup".toList,
   "integration".toList]

/-- extract_requirements_from_phrases from the source (lines 83-96).
`phrasesAll` is the engine's full ranked phrase list (the texts of
`doc._.phrases`, most salient first); the source slices off the top
`topn`, keeps a phrase when it contains a requirement keyword
(case-insensitively) or has at most five words, and falls back to the
unfiltered slice when the filter keeps nothing. -/
def extract_requirements_from_phrases (phrasesAll : List Str) (topn : Nat) : List Str :=
  let phrases := phrasesAll.take topn
  let reqs := phrases.filter (fun ph =>
    req_keywords.any (fun k => hasSub k (strLower ph))
      || decide ((pySplitWs ph).length ≤ 5))
  if reqs.isEmpty then phrases.take (min phrases.length topn) else reqs

/-- Frequency-table update, the source's `freq[e] = freq.get(e, 0) + 1`
over an insertion-ordered dict: bump the existing key in place, or append
a new key at the end. -/
def incr : List (String × Nat) → String → List (String × Nat)
  | [], e => [(e, 1)]
  | (x, c) :: l, e => if x = e then (x, c + 1) :: l else (x, c) :: incr l e

/-- The frequency table built by the counting loop of `extract_clients`
(source lines 103-105), in first-seen key order. -/
def buildFreq (es : List String) : List (String × Nat) := es.foldl incr []

/-- Stable insertion of one entry into a list sorted by descending count:
the entry goes after every present entry of greater or equal count. -/
def insDesc (a : String × Nat) : List (String × Nat) → List (String × Nat)
  | [] => [a]
  | b :: l => if a.2 ≤ b.2 then b :: insDesc a l else a :: b :: l

/-- Models the source's
`sorted(freq.items(), key=lambda x: x[1], reverse=True)` (line 106).
Python's `sorted` is specified as a stable sort, and stability is kept
under `reverse=True`; a left fold of stable insertions produces exactly
that order. -/
def sortDesc (l : List (String × Nat)) : List (String × Nat) :=
  l.foldl (fun acc a => insDesc a acc) []

/-- PERSON and ORG entity mention texts of the transcript (source
line 101); `docEnts` is the engine's entity list as text-label pairs. -/
def clientMentions (docEnts : List (String × String)) : List String :=
  (docEnts.filter (fun e => e.2 == "ORG" || e.2 == "PERSON")).map Prod.fst

/-- extract_clients from the source (lines 99-107): count PERSON and ORG
mentions, sort descending by count, keep the top `topn` names. -/
def extract_clients (docEnts : List (String × String)) (topn : Nat) : List String :=
  ((sortDesc (buildFreq (clientMentions docEnts))).take topn).map Prod.fst

/-- The full client ranking before truncation: the names of the sorted
frequency table. -/
def clientRanking (docEnts : List (String × String)) : List String :=
  (sortDesc (buildFreq (clientMentions docEnts))).map Prod.fst

/-- Occurrence count of a name in a list of names. -/
def cnt (x : String) : List String → Nat
  | [] => 0
  | y :: l => (if y = x then 1 else 0) + cnt x l

/-- Index of the first occurrence of a name (the list length when the
name is absent). -/
def firstPos (x : String) : List String → Nat
  | [] => 0
  | y :: l => if y = x then 0 else firstPos x l + 1

/-- Distinct names in order of first occurrence. -/
def firsts : List String → List String
  | [] => []
  | e :: es => e :: (firsts es).filter (fun x => x != e)

/-- Ranking order asserted by the specification for clients: strictly
greater mention count first, ties resolved by earlier first occurrence. -/
def clientOrder (es : List String) (a b : String) : Prop :=
  cnt b es < cnt a es ∨ (cnt a es = cnt b es ∧ firstPos a es < firstPos b es)

/-- Final structured result assembled by the handler (source
lines 141-148). -/
structure FinalResult where
  summary : Str
  action_items : List ActionItem
  clients : List String
  requirements : List Str
  minutes : List Str
deriving DecidableEq

/-- Body of an HTTP response: either an error message object or a final
result object. -/
inductive HandlerBody where
  | errMsg : Str → HandlerBody
  | result : FinalResult → HandlerBody
deriving DecidableEq

/-- An HTTP response as the source returns it: a status code and a body. -/
structure HandlerResponse where
  statusCode : Nat
  body : HandlerBody
deriving DecidableEq

/-- The error message of the bad-input response (source line 117). -/
def no_transcript_msg : Str := "No transcript provided".toList

/-- Response assembly for the pipeline outcome: the source's final
success return (line 150) and the top-level catch-all (lines 152-153). -/
def wrapPipe (r : Except Str FinalResult) : HandlerResponse :=
  match r with
  | .error e => HandlerResponse.mk 500 (HandlerBody.errMsg e)
  | .ok v => HandlerResponse.mk 200 (HandlerBody.result v)

/-- handler from the source (lines 112-153).  JSON parsing of the event
body and the downstream pipeline (chunking, summarization and the three
extractors, lines 119-149) enter as parameters: `parseRes` is the
outcome of `json.loads(event.get("body", "{}"))` followed by
`.get("transcript", "")` — `Except.error msg` when `json.loads` raised
(an exception that reaches only the top-level catch-all), `Except.ok
none` when the transcript field is absent, `Except.ok (some t)` when it
is present — while `pipeline` maps the validated transcript to either a
`FinalResult` or the message of an uncaught downstream exception. -/
def handler (parseRes : Except Str (Option Str))
    (pipeline : Str → Except Str FinalResult) : HandlerResponse :=
  match parseRes with
  | .error e => HandlerResponse.mk 500 (HandlerBody.errMsg e)
  | .ok tOpt =>
    let transcript := tOpt.getD []
    if transcript = [] then HandlerResponse.mk 400 (HandlerBody.errMsg no_transcript_msg)
    else wrapPipe (pipeline transcript)

/-! Concrete inputs used by counterexamples and witnesses. -/

/-- Concrete six-word phrase containing no requirement keyword. -/
def c7phrase : Str := "alpha beta gamma delta epsilon zeta".toList

/-- Concrete pipeline used by the handler witnesses: it fails with a
fixed message. -/
def pipeErr : Str → Except Str FinalResult := fun _ => Except.error "boom".toList

/-- Input on which the chunking loop never exits: one character more
than the default `max_chars`. -/
def c1text : Str := List.replicate 4501 'a'

/-- Two-character input, shorter than the `max_chars` of the C2
counterexample call. -/
def c2short : Str := ['a', 'b']

/-- Ten-character input, longer than the `max_chars` of the C2
counterexample call. -/
def c2long : Str := List.replicate 10 'a'

/-- Input for the C3 counterexample: seventy letters, a sentence
boundary, then fifty letters. -/
def c3text : Str := List.replicate 70 'a' ++ ('.' :: ' ' :: List.replicate 50 'b')

/-- Pair-level ranking order used while sorting the frequency table:
strictly greater count first, ties resolved by earlier first occurrence
of the key. -/
def pairOrder (es : List String) (p q : String × Nat) : Prop :=
  q.2 < p.2 ∨ (p.2 = q.2 ∧ firstPos p.1 es < firstPos q.1 es)

/-! Generic helper lemmas about the text primitives. -/

/-- dropWhile leaves a list unchanged when no element satisfies the
predicate. -/
theorem dropWhile_eq_self_of_not (p : Char → Bool) (l : Str)
    (h : ∀ c ∈ l, p c = false) : l.dropWhile p = l := by
  cases l with
  | nil => rfl
  | cons a rest =>
    rw [List.dropWhile_cons, h a (List.mem_cons_self a rest)]
    simp

/-- Stripping fixes a string with no whitespace at all. -/
theorem pstrip_of_no_space (l : Str) (h : ∀ c ∈ l, pisSpace c = false) :
    pstrip l = l := by
  unfold pstrip
  rw [dropWhile_eq_self_of_not _ _ h,
    dropWhile_eq_self_of_not _ _ (fun c hc => h c (List.mem_reverse.mp hc)),
    List.reverse_reverse]

/-- Stripping a fully-whitespace string yields the empty string. -/
theorem pstrip_of_all_space (l : Str) (h : ∀ c ∈ l, pisSpace c = true) :
    pstrip l = [] := by
  unfold pstrip
  rw [List.dropWhile_eq_nil_iff.mpr h]
  rfl

/-! Claim C4: the summarizer fallback. -/

/-- Counterexample to claim C4 as stated: when the ranked extraction
fails and segmentation yields a sentence carrying surrounding
whitespace, the fallback does not return that sentence verbatim — the
source trims each sentence (`sent.text.strip()`, line 53). -/
theorem summarize_chunk_fallback_not_verbatim :
    summarize_chunk (α := Nat) none (some [" A. ".toList]) 1 ≠ some [" A. ".toList] ∧
    summarize_chunk (α := Nat) none (some [" A. ".toList]) 1 = some ["A.".toList] := by
  constructor
  · decide
  · decide

/-- Claim C4 (amended): when the engine's ranked sentence-extraction
call fails, `summarize_chunk` returns exactly the first `n` sentences of
the chunk in document order as produced by the engine's segmentation,
each trimmed of surrounding whitespace, with no ranking applied; and the
fallback fails upward exactly when segmentation itself fails. -/
theorem summarize_chunk_fallback (α : Type) (sents : List Str) (n : Nat) :
    summarize_chunk (α := α) none (some sents) n
        = some ((sents.take n).map pstrip) ∧
    ∀ segRes : Option (List Str),
      (summarize_chunk (α := α) none segRes n = none ↔ segRes = none) := by
  refine ⟨rfl, ?_⟩
  intro segRes
  cases segRes <;> simp [summarize_chunk]

/-! Claim C7: the requirements fallback. -/

/-- Claim C7: when no phrase among the engine's top `topn` ranked
phrases contains a requirement keyword and every one of them has more
than five words, the filtered set is empty and
`extract_requirements_from_phrases` returns the first
`min(len(phrases), topn)` unfiltered ranked phrases — the whole
unfiltered top-`topn` slice, in rank order. -/
theorem extract_requirements_fallback (phrasesAll : List Str) (topn : Nat)
    (h : ∀ ph ∈ phrasesAll.take topn,
      (∀ k ∈ req_keywords, hasSub k (strLower ph) = false) ∧
        5 < (pySplitWs ph).length) :
    extract_requirements_from_phrases phrasesAll topn = phrasesAll.take topn := by
  have hfil : (phrasesAll.take topn).filter (fun ph =>
      req_keywords.any (fun k => hasSub k (strLower ph))
        || decide ((pySplitWs ph).length ≤ 5)) = [] := by
    rw [List.filter_eq_nil_iff]
    intro ph hph
    rcases h ph hph with ⟨hk, hw⟩
    simp only [Bool.or_eq_true, List.any_eq_true, decide_eq_true_eq, not_or]
    refine ⟨?_, by omega⟩
    rintro ⟨k, hk2, hks⟩
    rw [hk k hk2] at hks
    exact Bool.false_ne_true hks
  have hlen : (phrasesAll.take topn).length ≤ topn := List.length_take_le topn phrasesAll
  simp only [extract_requirements_from_phrases, hfil, List.isEmpty_nil, if_true]
  rw [Nat.min_eq_left hlen, List.take_length]

/-- Witness for claim C7 at a concrete input. -/
theorem extract_requirements_fallback_witness :
    extract_requirements_from_phrases [c7phrase] 12 = [c7phrase].take 12 :=
  extract_requirements_fallback [c7phrase] 12 (by decide)

/-! Claim C5: action-item deduplication. -/

/-- The dedup loop only drops items: its output is a sublist of its
input, so the relative order of kept items is that of the input. -/
theorem dedupeActions_sublist (l : List ActionItem) (seen : List Str) :
    (dedupeActions l seen).Sublist l := by
  induction l generalizing seen with
  | nil => simp [dedupeActions]
  | cons a rest ih =>
    rw [dedupeActions]
    split
    · exact (ih seen).cons a
    · exact (ih (a.text :: seen)).cons₂ a

/-- No item surviving the dedup loop has a text in the seen set. -/
theorem dedupeActions_not_seen (l : List ActionItem) (seen : List Str) :
    ∀ a ∈ dedupeActions l seen, a.text ∉ seen := by
  induction l generalizing seen with
  | nil => simp [dedupeActions]
  | cons a rest ih =>
    rw [dedupeActions]
    split
    · exact ih seen
    · rename_i hns
      intro b hb
      rcases List.mem_cons.mp hb with hb | hb
      · exact hb ▸ hns
      · exact fun hc => ih (a.text :: seen) b hb (List.mem_cons_of_mem _ hc)

/-- The texts surviving the dedup loop are pairwise distinct. -/
theorem dedupeActions_nodup (l : List ActionItem) (seen : List Str) :
    ((dedupeActions l seen).map ActionItem.text).Nodup := by
  induction l generalizing seen with
  | nil => simp [dedupeActions]
  | cons a rest ih =>
    rw [dedupeActions]
    split
    · exact ih seen
    · simp only [List.map_cons, List.nodup_cons]
      refine ⟨?_, ih (a.text :: seen)⟩
      intro hmem
      rcases List.mem_map.mp hmem with ⟨b, hb, hbt⟩
      exact dedupeActions_not_seen _ _ b hb (hbt ▸ List.mem_cons_self _ _)

/-- For each text, the dedup loop keeps exactly the first input item
carrying it (and none at all when the text was already seen). -/
theorem dedupeActions_filter (l : List ActionItem) (seen : List Str) (t : Str) :
    (dedupeActions l seen).filter (fun a => decide (a.text = t)) =
      if t ∈ seen then [] else (l.filter (fun a => decide (a.text = t))).take 1 := by
  induction l generalizing seen with
  | nil => simp [dedupeActions]
  | cons a rest ih =>
    rw [dedupeActions]
    by_cases hat : a.text = t
    · by_cases hmem : a.text ∈ seen
      · rw [if_pos hmem, ih seen, if_pos (hat ▸ hmem), if_pos (hat ▸ hmem)]
      · rw [if_neg hmem, List.filter_cons, if_pos (by simpa using hat),
          ih (a.text :: seen)]
        have htseen : t ∈ a.text :: seen := by
          rw [← hat]; exact List.mem_cons_self a.text seen
        have htns : t ∉ seen := fun hc => hmem (by rwa [hat])
        rw [if_pos htseen, if_neg htns, List.filter_cons, if_pos (by simpa using hat)]
        rfl
    · by_cases hmem : a.text ∈ seen
      · rw [if_pos hmem, ih seen]
        by_cases hts : t ∈ seen
        · rw [if_pos hts, if_pos hts]
        · rw [if_neg hts, if_neg hts, List.filter_cons, if_neg (by simpa using hat)]
      · rw [if_neg hmem, List.filter_cons, if_neg (by simpa using hat),
          ih (a.text :: seen)]
        have hiff : (t ∈ a.text :: seen) ↔ t ∈ seen := by
          simp only [List.mem_cons]
          exact or_iff_right (fun hc => hat hc.symm)
        by_cases hts : t ∈ seen
        · rw [if_pos (hiff.mpr hts), if_pos hts]
        · rw [if_neg (fun hc => hts (hiff.mp hc)), if_neg hts, List.filter_cons,
            if_neg (by simpa using hat)]

/-- Claim C5: the action-item list contains no two items with the same
trimmed sentence text; deduplication is by exact sentence-text equality
(for each text, the output retains exactly the first matching pre-dedup
item), and the relative order of the remaining items is preserved (the
output is a sublist of the pre-dedup list `mkActions sents`). -/
theorem extract_action_items_dedup (sents : List SentInfo) :
    ((extract_action_items sents).map ActionItem.text).Nodup ∧
    (extract_action_items sents).Sublist (mkActions sents) ∧
    ∀ t : Str, (extract_action_items sents).filter (fun a => decide (a.text = t)) =
      ((mkActions sents).filter (fun a => decide (a.text = t))).take 1 := by
  refine ⟨dedupeActions_nodup _ _, dedupeActions_sublist _ _, fun t => ?_⟩
  have h := dedupeActions_filter (mkActions sents) [] t
  simpa using h

/-! Claims C8, C9, C10: the handler boundary. -/

/-- Claim C9: when the request body is not valid JSON, `json.loads`
raises before the transcript validation can run, the exception reaches
only the top-level catch-all, and the handler returns the generic 500
internal-error response carrying the message — never the 400 bad-input
response; the downstream pipeline has no influence on this outcome. -/
theorem handler_parse_error_is_500 (e : Str)
    (p q : Str → Except Str FinalResult) :
    handler (Except.error e) p = HandlerResponse.mk 500 (HandlerBody.errMsg e) ∧
    (handler (Except.error e) p).statusCode ≠ 400 ∧
    handler (Except.error e) p = handler (Except.error e) q := by
  refine ⟨rfl, ?_, rfl⟩
  show (500 : Nat) ≠ 400
  decide

/-- Claim C8: a request whose transcript is missing or empty fails
validation with the 400 bad-input response, and that response does not
depend on the downstream pipeline — so no downstream call can influence
it — while any other transcript passes validation and the response is
exactly the wrapped outcome of the downstream pipeline on it. -/
theorem handler_validates_transcript (tOpt : Option Str) :
    (tOpt.getD [] = [] → ∀ p, handler (Except.ok tOpt) p =
        HandlerResponse.mk 400 (HandlerBody.errMsg no_transcript_msg)) ∧
    (∀ t : Str, t ≠ [] → ∀ p, handler (Except.ok (some t)) p = wrapPipe (p t)) := by
  constructor
  · intro h p
    simp [handler, h]
  · intro t ht p
    simp [handler, ht]

/-- Witness for claim C8: the missing-transcript request gets the 400
response, and a one-character transcript gets the wrapped pipeline
outcome. -/
theorem handler_validates_transcript_witness :
    handler (Except.ok none) pipeErr =
      HandlerResponse.mk 400 (HandlerBody.errMsg no_transcript_msg) ∧
    handler (Except.ok (some ['x'])) pipeErr = wrapPipe (pipeErr ['x']) :=
  ⟨(handler_validates_transcript none).1 rfl pipeErr,
   (handler_validates_transcript (some ['x'])).2 ['x'] (by decide) pipeErr⟩

/-- Claim C10: the validation rejects exactly the empty or missing
transcript — both get the 400 response independently of the pipeline,
and every non-empty transcript, whitespace-only ones included, is passed
to the downstream pipeline — and on a whitespace-only transcript
`chunk_text` strips the text first and, at the default parameters,
returns the single chunk consisting of the empty stripped text without
entering the loop (no fuel is needed). -/
theorem handler_accepts_whitespace (t : Str) :
    (∀ p, handler (Except.ok none) p =
        HandlerResponse.mk 400 (HandlerBody.errMsg no_transcript_msg)) ∧
    (∀ p, handler (Except.ok (some [])) p =
        HandlerResponse.mk 400 (HandlerBody.errMsg no_transcript_msg)) ∧
    (t ≠ [] → ∀ p, handler (Except.ok (some t)) p = wrapPipe (p t)) ∧
    ((∀ c ∈ t, pisSpace c = true) →
      ∀ fuel, chunk_text t 4500 300 fuel = some [[]]) := by
  refine ⟨fun p => rfl, fun p => rfl, fun ht p => by simp [handler, ht], ?_⟩
  intro hsp fuel
  simp only [chunk_text, pstrip_of_all_space t hsp]
  rfl

/-- Witness for claim C10 at the one-space transcript. -/
theorem handler_accepts_whitespace_witness :
    handler (Except.ok (some [' '])) pipeErr = wrapPipe (pipeErr [' ']) ∧
    chunk_text [' '] 4500 300 0 = some [[]] :=
  ⟨(handler_accepts_whitespace [' ']).2.2.1 (by decide) pipeErr,
   (handler_accepts_whitespace [' ']).2.2.2 (by decide) 0⟩

/-! Claims C1, C2, C3: the chunking loop. -/

/-- A match end reported by the boundary search lies inside the searched
text. -/
theorem findBoundaryEnd_le (l : Str) :
    ∀ m, findBoundaryEnd l = some m → m ≤ l.length := by
  induction l with
  | nil => intro m h; simp [findBoundaryEnd] at h
  | cons a rest ih =>
    intro m h
    cases rest with
    | nil => simp [findBoundaryEnd] at h
    | cons b rest2 =>
      rw [findBoundaryEnd] at h
      split at h
      · cases h
        simp only [List.length_cons]
        omega
      · rcases Option.map_eq_some'.mp h with ⟨m0, hm0, hm⟩
        have := ih m0 hm0
        simp only [List.length_cons] at this ⊢
        omega

/-- The searched window holds at most one hundred characters. -/
theorem windowOf_length_le (text : Str) (e0 : Nat) :
    (windowOf text e0).length ≤ 100 := by
  unfold windowOf pySlice
  refine le_trans (List.length_take_le _ _) ?_
  simp only [pyIdx]
  split <;> split <;> omega

/-- The end position of a chunking iteration never exceeds the text
length. -/
theorem iterEnd_le (text : Str) (mc start : Nat) (h : start < text.length) :
    iterEnd text mc start ≤ text.length := by
  unfold iterEnd
  simp only
  split
  · rename_i hlt
    split
    · rename_i me hme
      have h100 : me ≤ 100 :=
        le_trans (findBoundaryEnd_le _ me hme) (windowOf_length_le _ _)
      rw [Int.toNat_le]
      have hmin : min text.length (start + mc) ≤ text.length := min_le_left _ _
      omega
    · exact min_le_left _ _
  · exact min_le_left _ _

/-- Once entered, the chunking loop can never exit: after each pass the
new start position `end - overlap` (clamped at zero) is still strictly
below the text length whenever the overlap is positive, so the exit test
`start >= length` never succeeds and every fuel bound is exhausted. -/
theorem chunkIter_stuck (text : Str) (mc ov : Nat) (hov : 1 ≤ ov)
    (hL : 1 ≤ text.length) :
    ∀ fuel start acc, start < text.length →
      chunkIter text mc ov fuel start acc = none := by
  intro fuel
  induction fuel with
  | zero => intro start acc _; rfl
  | succ n ih =>
    intro start acc h
    rw [chunkIter, if_pos h]
    refine ih _ _ ?_
    have h1 := iterEnd_le text mc start h
    omega

/-- Claim C1 (code bug): on a non-empty input one character longer than
`max_chars`, at the default parameters `max_chars = 4500` and
`overlap = 300`, `chunk_text` does not terminate: the loop is entered
and no fuel bound suffices, because `start = end - overlap` stays
strictly below the text length forever, so the loop never stops and no
chunk list is ever produced. -/
theorem chunk_text_nontermination :
    ∀ fuel, chunk_text c1text 4500 300 fuel = none := by
  intro fuel
  have hstrip : pstrip c1text = c1text :=
    pstrip_of_no_space _ (fun c hc => by rw [List.eq_of_mem_replicate hc]; rfl)
  have hlen : c1text.length = 4501 := List.length_replicate 4501 'a'
  rw [chunk_text]
  simp only [hstrip, hlen]
  rw [if_neg (by omega)]
  exact chunkIter_stuck c1text 4500 300 (by omega) (by omega) fuel 0 [] (by omega)

/-- Claim C2 (code bug): `chunk_text` performs no validation of its
parameters and raises no configuration error when
`overlap >= max_chars`.  With `max_chars = 3` and `overlap = 5`, a
two-character text is returned as an ordinary single chunk, and a
ten-character text enters the chunking loop and never leaves it —
instead of failing fast before any loop iteration. -/
theorem chunk_text_no_config_error :
    (∀ fuel, chunk_text c2short 3 5 fuel = some [c2short]) ∧
    (∀ fuel, chunk_text c2long 3 5 fuel = none) := by
  constructor
  · intro fuel; rfl
  · intro fuel
    have hstrip : pstrip c2long = c2long :=
      pstrip_of_no_space _ (fun c hc => by rw [List.eq_of_mem_replicate hc]; rfl)
    have hlen : c2long.length = 10 := List.length_replicate 10 'a'
    rw [chunk_text]
    simp only [hstrip, hlen]
    rw [if_neg (by omega)]
    exact chunkIter_stuck c2long 3 5 (by omega) (by omega) fuel 0 [] (by omega)

/-- Claim C3 (code bug): in the first chunking iteration on `c3text`
with `max_chars = 60`, the hard cut is `end = 60`, below the length 122,
and the boundary search over the window `text[10:110]` finds the pattern
at window offset 60 with match end 62; the position just after that
match in the text is `60 - 50 + 62 = 72`, yet the iteration sets `end`
to 22.  The source computes `end - 50 + rel` although `rel = m.end() - 50`
is already relative to `end`, landing fifty characters short of the
match — contrary to its own comment "place end at match end". -/
theorem chunk_boundary_off_by_fifty :
    c3text.length = 122 ∧
    findBoundaryEnd (windowOf c3text 60) = some 62 ∧
    iterEnd c3text 60 0 = 22 ∧
    iterEnd c3text 60 0 ≠ 60 - 50 + 62 := by
  refine ⟨by decide, by decide, by decide, by decide⟩

/-! Claim C6: client ranking. -/

/-- Counting distributes over appending a single element. -/
theorem cnt_concat (x e : String) (es : List String) :
    cnt x (es ++ [e]) = cnt x es + (if e = x then 1 else 0) := by
  induction es with
  | nil => simp [cnt]
  | cons y l ih =>
    simp only [List.cons_append, cnt, List.append_eq, ih]
    omega

/-- An absent name has count zero. -/
theorem cnt_eq_zero_of_not_mem (e : String) (es : List String) (h : e ∉ es) :
    cnt e es = 0 := by
  induction es with
  | nil => rfl
  | cons y l ih =>
    simp only [List.mem_cons, not_or] at h
    rw [cnt, if_neg (fun hc => h.1 hc.symm), ih h.2]

/-- Membership in the first-occurrence list agrees with membership. -/
theorem mem_firsts (es : List String) (x : String) : x ∈ firsts es ↔ x ∈ es := by
  induction es with
  | nil => simp [firsts]
  | cons e l ih =>
    simp only [firsts, List.mem_cons, List.mem_filter]
    constructor
    · rintro (rfl | ⟨hx, _⟩)
      · exact Or.inl rfl
      · exact Or.inr (ih.mp hx)
    · rintro (rfl | hx)
      · exact Or.inl rfl
      · by_cases hxe : x = e
        · exact Or.inl hxe
        · exact Or.inr ⟨ih.mpr hx, by simp [hxe]⟩

/-- The first-occurrence list has no duplicates. -/
theorem nodup_firsts (es : List String) : (firsts es).Nodup := by
  induction es with
  | nil => simp [firsts]
  | cons e l ih =>
    simp only [firsts, List.nodup_cons]
    refine ⟨?_, ih.filter _⟩
    intro hmem
    rcases List.mem_filter.mp hmem with ⟨_, hne⟩
    simp at hne

/-- Appending one element extends the first-occurrence list exactly when
the element is new. -/
theorem firsts_concat (es : List String) (e : String) :
    firsts (es ++ [e]) = if e ∈ es then firsts es else firsts es ++ [e] := by
  induction es with
  | nil => simp [firsts]
  | cons a l ih =>
    rw [List.cons_append]
    show a :: (firsts (l ++ [e])).filter (fun x => x != a)
        = if e ∈ a :: l then firsts (a :: l) else firsts (a :: l) ++ [e]
    rw [ih]
    by_cases hel : e ∈ l
    · rw [if_pos hel, if_pos (List.mem_cons_of_mem a hel)]
      rfl
    · rw [if_neg hel]
      by_cases hea : e = a
      · rw [if_pos (by rw [hea]; exact List.mem_cons_self a l), List.filter_append]
        have h1 : List.filter (fun x => x != a) [e] = [] := by simp [hea]
        rw [h1, List.append_nil]
        rfl
      · have henal : e ∉ a :: l := by
          simp only [List.mem_cons, not_or]
          exact ⟨hea, hel⟩
        rw [if_neg henal, List.filter_append]
        have h1 : List.filter (fun x => x != a) [e] = [e] := by simp [hea]
        rw [h1]
        show a :: ((firsts l).filter (fun x => x != a) ++ [e])
            = (a :: (firsts l).filter (fun x => x != a)) ++ [e]
        rw [List.cons_append]

/-- Along the first-occurrence list, first-occurrence positions strictly
increase. -/
theorem pairwise_firstPos_firsts (es : List String) :
    (firsts es).Pairwise (fun a b => firstPos a es < firstPos b es) := by
  induction es with
  | nil => simp [firsts]
  | cons e l ih =>
    simp only [firsts]
    rw [List.pairwise_cons]
    constructor
    · intro b hb
      rcases List.mem_filter.mp hb with ⟨_, hbne⟩
      have hbe : b ≠ e := by simpa using hbne
      have h1 : firstPos e (e :: l) = 0 := by simp [firstPos]
      have h2 : firstPos b (e :: l) = firstPos b l + 1 := by
        rw [firstPos, if_neg (fun hc : e = b => hbe hc.symm)]
      rw [h1, h2]
      omega
    · have hpf : ((firsts l).filter (fun x => x != e)).Pairwise
          (fun a b => firstPos a l < firstPos b l) := ih.filter _
      refine hpf.imp_of_mem ?_
      intro a b ha hb hab
      have hae : a ≠ e := by simpa using (List.mem_filter.mp ha).2
      have hbe : b ≠ e := by simpa using (List.mem_filter.mp hb).2
      have h1 : firstPos a (e :: l) = firstPos a l + 1 := by
        rw [firstPos, if_neg (fun hc : e = a => hae hc.symm)]
      have h2 : firstPos b (e :: l) = firstPos b l + 1 := by
        rw [firstPos, if_neg (fun hc : e = b => hbe hc.symm)]
      rw [h1, h2]
      omega

/-- Updating an absent key appends it with count one. -/
theorem incr_of_not_mem (l : List (String × Nat)) (e : String)
    (h : e ∉ l.map Prod.fst) : incr l e = l ++ [(e, 1)] := by
  induction l with
  | nil => rfl
  | cons p l ih =>
    obtain ⟨x, c⟩ := p
    simp only [List.map_cons, List.mem_cons, not_or] at h
    rw [incr, if_neg (fun hc => h.1 hc.symm), ih h.2, List.cons_append]

/-- Updating a present key of a keyed table bumps exactly that key. -/
theorem incr_map_of_mem (keys : List String) (g : String → Nat) (e : String)
    (hnd : keys.Nodup) (he : e ∈ keys) :
    incr (keys.map (fun x => (x, g x))) e
      = keys.map (fun x => (x, if x = e then g x + 1 else g x)) := by
  induction keys with
  | nil => simp at he
  | cons a keys ih =>
    rw [List.map_cons, incr, List.map_cons]
    by_cases hae : a = e
    · rw [if_pos hae, if_pos hae]
      have hanotin : a ∉ keys := (List.nodup_cons.mp hnd).1
      have : keys.map (fun x => (x, if x = e then g x + 1 else g x))
          = keys.map (fun x => (x, g x)) := by
        refine List.map_congr_left ?_
        intro x hx
        have hxe : x ≠ e := fun hc => hanotin (hae ▸ hc ▸ hx)
        rw [if_neg hxe]
      rw [this]
    · rw [if_neg hae, if_neg hae]
      have he2 : e ∈ keys := by
        rcases List.mem_cons.mp he with h1 | h1
        · exact absurd h1.symm hae
        · exact h1
      rw [ih (List.nodup_cons.mp hnd).2 he2]

/-- The frequency fold commutes with appending one mention. -/
theorem buildFreq_concat (es : List String) (e : String) :
    buildFreq (es ++ [e]) = incr (buildFreq es) e := by
  simp [buildFreq, List.foldl_append]

/-- Dropping the attached counts from a keyed table recovers the keys. -/
theorem map_fst_pairs (l : List String) (g : String → Nat) :
    (l.map (fun x => (x, g x))).map Prod.fst = l := by
  rw [List.map_map]
  exact List.map_id l

/-- The frequency table lists the distinct mentions in first-seen order,
each paired with its total mention count. -/
theorem buildFreq_eq (es : List String) :
    buildFreq es = (firsts es).map (fun x => (x, cnt x es)) := by
  induction es using List.reverseRecOn with
  | nil => rfl
  | append_singleton es e ih =>
    rw [buildFreq_concat, ih, firsts_concat]
    by_cases he : e ∈ es
    · rw [if_pos he,
        incr_map_of_mem (firsts es) _ e (nodup_firsts es) ((mem_firsts es e).mpr he)]
      refine List.map_congr_left ?_
      intro x hx
      rw [cnt_concat]
      by_cases hxe : x = e
      · rw [if_pos hxe, if_pos hxe.symm]
      · rw [if_neg hxe, if_neg (fun hc : e = x => hxe hc.symm), Nat.add_zero]
    · rw [if_neg he, incr_of_not_mem _ e (by
        rw [map_fst_pairs]
        exact fun hc => he ((mem_firsts es e).mp hc)),
        List.map_append]
      congr 1
      · refine List.map_congr_left ?_
        intro x hx
        have hxe : x ≠ e := fun hc => he (hc ▸ (mem_firsts es x).mp hx)
        rw [cnt_concat, if_neg (fun hc : e = x => hxe hc.symm), Nat.add_zero]
      · have h0 : cnt e es = 0 := cnt_eq_zero_of_not_mem e es he
        simp [cnt_concat, h0]

/-- Stable insertion permutes the element onto the list. -/
theorem insDesc_perm (a : String × Nat) (l : List (String × Nat)) :
    List.Perm (insDesc a l) (a :: l) := by
  induction l with
  | nil => exact List.Perm.refl _
  | cons b l ih =>
    rw [insDesc]
    split
    · exact (ih.cons b).trans (List.Perm.swap a b l)
    · exact List.Perm.refl _

/-- Stable insertion preserves the pair ordering, provided the new
element was first counted after everything already inserted. -/
theorem insDesc_pairwise (es : List String) (a : String × Nat)
    (l : List (String × Nat)) (hl : l.Pairwise (pairOrder es))
    (ha : ∀ b ∈ l, firstPos b.1 es < firstPos a.1 es) :
    (insDesc a l).Pairwise (pairOrder es) := by
  induction l with
  | nil => simp [insDesc]
  | cons b l ih =>
    rw [insDesc]
    rcases List.pairwise_cons.mp hl with ⟨hb, hl2⟩
    split
    · rename_i hab
      rw [List.pairwise_cons]
      constructor
      · intro c hc
        rcases List.mem_cons.mp ((insDesc_perm a l).mem_iff.mp hc) with rfl | hcl
        · rcases Nat.lt_or_eq_of_le hab with h1 | h1
          · exact Or.inl h1
          · exact Or.inr ⟨h1.symm, ha b (List.mem_cons_self b l)⟩
        · exact hb c hcl
      · exact ih hl2 (fun c hc => ha c (List.mem_cons_of_mem b hc))
    · rename_i hab
      rw [List.pairwise_cons]
      constructor
      · intro c hc
        rcases List.mem_cons.mp hc with rfl | hcl
        · exact Or.inl (Nat.lt_of_not_le hab)
        · have hcb := hb c hcl
          have hc2 : c.2 ≤ b.2 := by
            rcases hcb with h1 | ⟨h1, _⟩
            · omega
            · omega
          exact Or.inl (by have := Nat.lt_of_not_le hab; omega)
      · exact hl

/-- The fold of stable insertions produces a pair-ordered list whenever
the input comes in strictly increasing first-occurrence order. -/
theorem sortDesc_pairwise_aux (es : List String) :
    ∀ (l acc : List (String × Nat)), acc.Pairwise (pairOrder es) →
      (∀ b ∈ acc, ∀ a ∈ l, firstPos b.1 es < firstPos a.1 es) →
      l.Pairwise (fun p q => firstPos p.1 es < firstPos q.1 es) →
      (l.foldl (fun acc a => insDesc a acc) acc).Pairwise (pairOrder es) := by
  intro l
  induction l with
  | nil => intro acc h _ _; simpa using h
  | cons a l ih =>
    intro acc hacc hcross hl
    rw [List.foldl_cons]
    rcases List.pairwise_cons.mp hl with ⟨hal, hl2⟩
    refine ih (insDesc a acc) ?_ ?_ hl2
    · exact insDesc_pairwise es a acc hacc
        (fun b hb => hcross b hb a (List.mem_cons_self a l))
    · intro b hb a2 ha2
      rcases List.mem_cons.mp ((insDesc_perm a acc).mem_iff.mp hb) with rfl | hbacc
      · exact hal a2 ha2
      · exact hcross b hbacc a2 (List.mem_cons_of_mem a ha2)

/-- The stable sort is a permutation of its input. -/
theorem sortDesc_perm (l : List (String × Nat)) : List.Perm (sortDesc l) l := by
  suffices h : ∀ (l acc : List (String × Nat)),
      List.Perm (l.foldl (fun acc a => insDesc a acc) acc) (acc ++ l) by
    simpa using h l []
  intro l
  induction l with
  | nil => intro acc; simp
  | cons a l ih =>
    intro acc
    rw [List.foldl_cons]
    refine (ih (insDesc a acc)).trans ?_
    refine ((insDesc_perm a acc).append_right l).trans ?_
    exact List.perm_middle.symm

/-- Claim C6: `extract_clients` returns the distinct PERSON/ORG entity
texts stable-sorted by descending mention count — entities of equal
count retaining the relative order in which they were first counted —
truncated to the top `topn`, with only the names in the output: the
output is the `topn`-truncation of a full ranking list which is a
permutation of the distinct mention texts in first-seen order, has no
duplicates, and is pairwise arranged by descending count with ties in
first-counted order. -/
theorem extract_clients_ranking (docEnts : List (String × String)) (topn : Nat) :
    extract_clients docEnts topn = (clientRanking docEnts).take topn ∧
    List.Perm (clientRanking docEnts) (firsts (clientMentions docEnts)) ∧
    (clientRanking docEnts).Nodup ∧
    (clientRanking docEnts).Pairwise (clientOrder (clientMentions docEnts)) := by
  have hperm : List.Perm (clientRanking docEnts) (firsts (clientMentions docEnts)) := by
    have h1 := (sortDesc_perm (buildFreq (clientMentions docEnts))).map Prod.fst
    refine h1.trans ?_
    rw [buildFreq_eq, map_fst_pairs]
  have hpair : (sortDesc (buildFreq (clientMentions docEnts))).Pairwise
      (pairOrder (clientMentions docEnts)) := by
    refine sortDesc_pairwise_aux (clientMentions docEnts)
      (buildFreq (clientMentions docEnts)) [] List.Pairwise.nil (by simp) ?_
    rw [buildFreq_eq, List.pairwise_map]
    exact pairwise_firstPos_firsts (clientMentions docEnts)
  have hmemcnt : ∀ p ∈ sortDesc (buildFreq (clientMentions docEnts)),
      p.2 = cnt p.1 (clientMentions docEnts) := by
    intro p hp
    have hp2 : p ∈ buildFreq (clientMentions docEnts) :=
      (sortDesc_perm _).mem_iff.mp hp
    rw [buildFreq_eq] at hp2
    rcases List.mem_map.mp hp2 with ⟨x, _, rfl⟩
    rfl
  refine ⟨?_, hperm, hperm.nodup_iff.mpr (nodup_firsts _), ?_⟩
  · show ((sortDesc (buildFreq (clientMentions docEnts))).take topn).map Prod.fst
      = ((sortDesc (buildFreq (clientMentions docEnts))).map Prod.fst).take topn
    exact List.map_take Prod.fst (sortDesc (buildFreq (clientMentions docEnts))) topn
  · show ((sortDesc (buildFreq (clientMentions docEnts))).map Prod.fst).Pairwise
      (clientOrder (clientMentions docEnts))
    rw [List.pairwise_map]
    refine hpair.imp_of_mem ?_
    intro p q hp hq hpq
    have h1 := hmemcnt p hp
    have h2 := hmemcnt q hq
    rcases hpq with h3 | ⟨h3, h4⟩
    · exact Or.inl (by rw [← h1, ← h2]; exact h3)
    · exact Or.inr ⟨by rw [← h1, ← h2]; exact h3, h4⟩

end Summarizer
